import Mathlib

/-!
Verification of the finalization registry of `Lib/multiprocessing/util.py`:
the `Finalize` class (`__init__`, `__call__`, `cancel`), the batch runner
`_run_finalizers`, the fork-reinitialization runner `_run_after_forkers`
with `register_after_fork`, and the shutdown protocol `_exit_function` /
`is_exiting`.

The Python state is embedded explicitly: `UtilState` carries the store of
`Finalize` objects (indexed by a natural-number object identity `fid`),
the module-level `_finalizer_registry` dict (an association list keyed by
`(exitpriority, sequence)` in insertion order, mirroring dict insertion
order), the two `itertools.count()` counters, the `_afterfork_registry`,
the `_exiting` flag, and a trace of observable events (callback
executions, child terminate/join requests, after-fork callback runs).
User callbacks are modelled by a behaviour function `cbBeh` mapping the
callback identity and its arguments to either a result or a raised
exception (an error code); a raising callback is `Except.error`.
-/

namespace MpUtil

/-- A Python value passed as the `exitpriority` argument of
`Finalize.__init__`: either an `int` or some non-`int` value such as a
`float` or `str` (only `isinstance(·, int)` matters to the code). -/
inductive PyVal : Type where
  | int : Int → PyVal
  | float : Int → PyVal
  | str : String → PyVal
deriving Repr, DecidableEq

/-- `isinstance(v, int)` for the modelled values. -/
def PyVal.isInt : PyVal → Bool
  | .int _ => true
  | _ => false

/-- The `int` payload of a `PyVal` (meaningful only when `isInt`). -/
def PyVal.toInt : PyVal → Int
  | .int n => n
  | .float n => n
  | .str _ => 0

/-- Exceptions raised by `Finalize.__init__`. -/
inductive PyErr : Type where
  | typeError
  | valueError
deriving Repr, DecidableEq

/-- A key of `_finalizer_registry`: `(exitpriority, sequence)`. -/
abbrev FKey := Option Int × Nat

/-- The mutable fields of a `Finalize` object.  Fields that `__call__`
and `cancel` set to `None` are `Option`s; `weakref` records the identity
of the weakly referenced owner object while set. -/
structure Finalizer where
  weakref : Option Nat
  callback : Option Nat
  args : Option (List Nat)
  kwargs : Option (List (Nat × Nat))
  key : Option FKey
  pid : Nat
deriving Repr, DecidableEq

/-- Observable events, in program order. -/
inductive Event : Type where
  | callback : Nat → Event
  | terminate : Nat → Event
  | join : Nat → Event
  | afterfork : Nat → Nat → Event
deriving Repr, DecidableEq

/-- A key of `_afterfork_registry`: `(count, id(obj), func)`. -/
abbrev AFKey := Nat × Nat × Nat

/-- The module-level mutable state of `multiprocessing/util.py` that the
finalization machinery touches. -/
structure UtilState where
  fins : List Finalizer
  registry : List (FKey × Nat)
  counter : Nat
  afRegistry : List (AFKey × Nat)
  afCounter : Nat
  exiting : Option Bool
  events : List Event
deriving Repr, DecidableEq

/-- Dict lookup `d[k]` on the registry association list. -/
def lookupKey (k : FKey) : List (FKey × Nat) → Option Nat
  | [] => none
  | p :: ps => if p.1 = k then some p.2 else lookupKey k ps

/-- Dict deletion `del d[k]` on the registry association list (removes
the first binding of `k`; real dict keys are unique). -/
def eraseKey (k : FKey) : List (FKey × Nat) → List (FKey × Nat)
  | [] => []
  | p :: ps => if p.1 = k then ps else p :: eraseKey k ps

/-- A behaviour of user callbacks: from the callback identity, args and
kwargs to either a normal result or a raised exception code. -/
abbrev CbBeh := Nat → List Nat → List (Nat × Nat) → Except Nat Nat

/-- `Finalize.__init__(obj, callback, args, kwargs, exitpriority)` in
process `curPid`.  Returns the updated state and either the fresh
object identity of the new `Finalize` or the exception raised.  On an
exception the returned state is the input state: the `TypeError` check
precedes the weak-reference setup and the registry insertion, and the
`ValueError` branch is reached only when no weak reference was set. -/
def finalizeInit (s : UtilState) (obj : Option Nat) (cb : Nat)
    (args : List Nat) (kwargs : List (Nat × Nat))
    (exitpriority : Option PyVal) (curPid : Nat) :
    UtilState × Except PyErr Nat :=
  if exitpriority.any (fun v => ¬ v.isInt) then
    (s, .error .typeError)
  else if obj.isNone && exitpriority.isNone then
    (s, .error .valueError)
  else
    let key : FKey := (exitpriority.map PyVal.toInt, s.counter)
    let fin : Finalizer :=
      { weakref := obj, callback := some cb, args := some args,
        kwargs := some kwargs, key := some key, pid := curPid }
    let fid := s.fins.length
    ({ s with fins := s.fins ++ [fin],
              counter := s.counter + 1,
              registry := s.registry ++ [(key, fid)] }, .ok fid)

/-- A cleared `Finalize` object: `self._weakref = self._callback =
self._args = self._kwargs = self._key = None`. -/
def clearFin (fin : Finalizer) : Finalizer :=
  { fin with weakref := none, callback := none, args := none,
             kwargs := none, key := none }

/-- `Finalize.__call__` on the object `fid` in process `curPid` with
callback behaviour `cbBeh`.  Returns the updated state and either the
returned value (`none` models Python `None`) or the exception the
callback raised, which propagates.  A `KeyError` from
`del _finalizer_registry[self._key]` (key already removed, or the field
already cleared to `None`) is caught and the call returns `None`.  When
the callback raises, the field-clearing assignment is not reached, so
the fields stay as they were. -/
def finalizeCall (cbBeh : CbBeh) (curPid : Nat) (s : UtilState)
    (fid : Nat) : UtilState × Except Nat (Option Nat) :=
  match s.fins[fid]? with
  | none => (s, .ok none)
  | some fin =>
    match fin.key with
    | none => (s, .ok none)
    | some k =>
      if (lookupKey k s.registry).isSome then
        let s1 := { s with registry := eraseKey k s.registry }
        if fin.pid ≠ curPid then
          ({ s1 with fins := s1.fins.set fid (clearFin fin) }, .ok none)
        else
          match fin.callback, fin.args, fin.kwargs with
          | some cb, some args, some kwargs =>
            let s2 := { s1 with events := s1.events ++ [Event.callback fid] }
            match cbBeh cb args kwargs with
            | .ok res =>
              ({ s2 with fins := s2.fins.set fid (clearFin fin) },
               .ok (some res))
            | .error e => (s2, .error e)
          | _, _, _ => (s1, .error 0)
      else
        (s, .ok none)

/-- `Finalize.cancel` on the object `fid`: the same `del` with the
`KeyError` swallowed, and the callback never invoked. -/
def finalizeCancel (s : UtilState) (fid : Nat) : UtilState :=
  match s.fins[fid]? with
  | none => s
  | some fin =>
    match fin.key with
    | none => s
    | some k =>
      if (lookupKey k s.registry).isSome then
        { s with registry := eraseKey k s.registry,
                 fins := s.fins.set fid (clearFin fin) }
      else s

/-- `Finalize.still_active`: `self._key in _finalizer_registry`
(a cleared `None` key is never a registry key). -/
def stillActive (s : UtilState) (fid : Nat) : Bool :=
  match (s.fins[fid]?).bind Finalizer.key with
  | none => false
  | some k => (lookupKey k s.registry).isSome

/-- Strict comparison of `exitpriority` components as Python compares
them inside a sorted key list.  `_run_finalizers` sorts only keys whose
priority is not `None`, so the `none` rows are never reached there; they
are completed (a `none` priority ordered below every `int`) to keep the
comparator total. -/
def pLt : Option Int → Option Int → Bool
  | none, some _ => true
  | some p, some q => p < q
  | _, _ => false

/-- `b ≤ a` in the lexicographic tuple order on `(exitpriority,
sequence)` keys, i.e. `a` sorts no later than `b` in descending order. -/
def fkeyGe (a b : FKey) : Bool :=
  pLt b.1 a.1 || (b.1 == a.1 && b.2 ≤ a.2)

/-- `keys.sort(reverse=True)`: a stable sort putting greater keys
first (stability is irrelevant, the sequence components make keys
unique). -/
def sortDesc (l : List FKey) : List FKey :=
  List.insertionSort (fun a b => fkeyGe a b = true) l

/-- The selection filter of `_run_finalizers`: `p[0] is not None`, and
when `minpriority` is given also `p[0] >= minpriority`. -/
def selP (minpriority : Option Int) (p : FKey) : Bool :=
  match minpriority with
  | none => p.1.isSome
  | some m =>
    match p.1 with
    | none => false
    | some q => m ≤ q

/-- The sorted key list `_run_finalizers` iterates over: the keys
present at selection time that pass the filter, sorted descending. -/
def selKeys (s : UtilState) (minpriority : Option Int) : List FKey :=
  sortDesc ((s.registry.map Prod.fst).filter (selP minpriority))

/-- The loop of `_run_finalizers`: for each key re-fetch the entry
(`_finalizer_registry.get(key)`), skip silently if absent, otherwise
invoke it with any raised exception caught (`traceback.print_exc()`)
and the loop continuing. -/
def runFinLoop (cbBeh : CbBeh) (curPid : Nat) :
    List FKey → UtilState → UtilState
  | [], s => s
  | k :: ks, s =>
    match lookupKey k s.registry with
    | none => runFinLoop cbBeh curPid ks s
    | some fid => runFinLoop cbBeh curPid ks (finalizeCall cbBeh curPid s fid).1

/-- `_run_finalizers(minpriority)`: select, sort descending, run the
loop, and if `minpriority is None` clear the whole registry at the
end.  (The `_finalizer_registry is None` guard for destroyed module
globals is outside the modelled state: the registry always exists
here.) -/
def runFinalizers (cbBeh : CbBeh) (curPid : Nat) (minpriority : Option Int)
    (s : UtilState) : UtilState :=
  let s1 := runFinLoop cbBeh curPid (selKeys s minpriority) s
  match minpriority with
  | none => { s1 with registry := [] }
  | some _ => s1

/-- `register_after_fork(obj, func)`: insert
`(next(_afterfork_counter), id(obj), func) -> obj`. -/
def registerAfterFork (s : UtilState) (objId : Nat) (func : Nat) :
    UtilState :=
  { s with afRegistry := s.afRegistry ++ [((s.afCounter, objId, func), objId)],
           afCounter := s.afCounter + 1 }

/-- Ascending lexicographic comparison of the `(key, obj)` items sorted
by `_run_after_forkers` (Python compares the key triples first; the
`obj` component is completed with `≤` to keep the comparator total,
though unique counter values mean it is never consulted). -/
def afLe (a b : AFKey × Nat) : Bool :=
  decide (a.1.1 < b.1.1) ||
    (a.1.1 == b.1.1 &&
      (decide (a.1.2.1 < b.1.2.1) ||
        (a.1.2.1 == b.1.2.1 &&
          (decide (a.1.2.2 < b.1.2.2) ||
            (a.1.2.2 == b.1.2.2 && decide (a.2 ≤ b.2))))))

/-- `items.sort()`: a stable ascending sort of the after-fork items. -/
def sortAsc (l : List (AFKey × Nat)) : List (AFKey × Nat) :=
  List.insertionSort (fun a b => afLe a b = true) l

/-- A behaviour of after-fork callbacks: `func(obj)` either returns or
raises. -/
abbrev AfBeh := Nat → Nat → Except Nat Unit

/-- The loop of `_run_after_forkers`: `func(obj)` for each sorted item,
any exception caught (`info(...)`) and the loop continuing, so every
item is invoked whatever `afBeh` does. -/
def runAfLoop (afBeh : AfBeh) : List (AFKey × Nat) → UtilState → UtilState
  | [], s => s
  | (k, obj) :: rest, s =>
    let s1 := { s with events := s.events ++ [Event.afterfork k.2.2 obj] }
    match afBeh k.2.2 obj with
    | .ok _ => runAfLoop afBeh rest s1
    | .error _ => runAfLoop afBeh rest s1

/-- `_run_after_forkers()`: snapshot the live items, sort ascending by
key, invoke each with exceptions caught. -/
def runAfterForkers (afBeh : AfBeh) (s : UtilState) : UtilState :=
  runAfLoop afBeh (sortAsc s.afRegistry) s

/-- `is_exiting()`: `_exiting or _exiting is None` (the `none` flag
value models the module global nulled out during interpreter
teardown). -/
def isExiting (s : UtilState) : Bool := s.exiting ≠ some false

/-- An active child process as `_exit_function` sees it: its name and
its `daemon` flag. -/
structure Child where
  name : Nat
  daemon : Bool
deriving Repr, DecidableEq

/-- The process-registry collaborators of `_exit_function`:
whether `current_process()` is available (not `None`), and the answer
of `active_children()`. -/
structure ProcEnv where
  curAvailable : Bool
  children : List Child
deriving Repr, DecidableEq

/-- The child-teardown step of `_exit_function`: terminate every daemon
child, then join every active child. -/
def childTeardown (children : List Child) (s : UtilState) : UtilState :=
  let s1 := children.foldl
    (fun st c =>
      if c.daemon then { st with events := st.events ++ [Event.terminate c.name] }
      else st) s
  children.foldl
    (fun st c => { st with events := st.events ++ [Event.join c.name] }) s1

/-- `_exit_function()`: guarded by `if not _exiting` (both `False` and
the torn-down `None` are falsy), set `_exiting = True`, run finalizers
with `minpriority = 0`, terminate/join children only when
`current_process()` is not `None`, then run all remaining finalizers. -/
def exitFunction (cbBeh : CbBeh) (curPid : Nat) (env : ProcEnv)
    (s : UtilState) : UtilState :=
  if s.exiting = some true then s
  else
    let s0 := { s with exiting := some true }
    let s1 := runFinalizers cbBeh curPid (some 0) s0
    let s2 := if env.curAvailable then childTeardown env.children s1 else s1
    runFinalizers cbBeh curPid none s2

/-- The explicit operations a client can issue against the finalizer
registry: invoke a handle, cancel a handle, or run a batch. -/
inductive FOp : Type where
  | invoke : Nat → FOp
  | cancel : Nat → FOp
  | runAll : Option Int → FOp
deriving Repr, DecidableEq

/-- The state effect of one operation (a raised callback exception
propagates to the issuer of an `invoke`, leaving this state). -/
def stepOp (cbBeh : CbBeh) (curPid : Nat) (s : UtilState) : FOp → UtilState
  | .invoke fid => (finalizeCall cbBeh curPid s fid).1
  | .cancel fid => finalizeCancel s fid
  | .runAll mp => runFinalizers cbBeh curPid mp s

/-- Run a sequence of operations. -/
def runOps (cbBeh : CbBeh) (curPid : Nat) : List FOp → UtilState → UtilState
  | [], s => s
  | op :: ops, s => runOps cbBeh curPid ops (stepOp cbBeh curPid s op)

/-- Registry coherence: every registry binding `(k, fid)` points at a
stored `Finalize` object whose `_key` field is still `k`. -/
def keyMatches (s : UtilState) : Prop :=
  ∀ p ∈ s.registry, (s.fins[p.2]?).bind Finalizer.key = some p.1

/-- Distinct stored `Finalize` objects never share a non-`None` `_key`
(each key embeds a fresh value of the process-wide counter). -/
def keyInj (s : UtilState) : Prop :=
  ∀ i < s.fins.length, ∀ j < s.fins.length,
    (s.fins[i]?.bind Finalizer.key).isSome = true →
    s.fins[i]?.bind Finalizer.key = s.fins[j]?.bind Finalizer.key →
    i = j

/-- Well-formedness of the finalizer registry state, as established by
registration: coherent bindings, no duplicate registry keys, and
injective `_key` fields. -/
def WFreg (s : UtilState) : Prop :=
  keyMatches s ∧ (s.registry.map Prod.fst).Nodup ∧ keyInj s

instance (s : UtilState) : Decidable (WFreg s) := by
  unfold WFreg keyMatches keyInj
  exact inferInstance

/-- How many times the callback of the entry `fid` has executed, read
off the event trace. -/
def cbCount (fid : Nat) (s : UtilState) : Nat :=
  s.events.count (Event.callback fid)

/-- Executions so far plus the at-most-one execution the entry can
still perform while registered. -/
def budget (fid : Nat) (s : UtilState) : Nat :=
  cbCount fid s + (if stillActive s fid then 1 else 0)

theorem lookupKey_erase_ne (k k' : FKey) (l : List (FKey × Nat))
    (h : k' ≠ k) : lookupKey k' (eraseKey k l) = lookupKey k' l := by
  induction l with
  | nil => rfl
  | cons p ps ih =>
    by_cases hp : p.1 = k
    · have hpk : ¬ (p.1 = k') := fun hc => h (by rw [← hc, hp])
      rw [eraseKey, if_pos hp, lookupKey, if_neg hpk]
    · rw [eraseKey, if_neg hp, lookupKey, lookupKey, ih]

theorem lookupKey_isSome_of_erase (k k' : FKey) (l : List (FKey × Nat))
    (h : (lookupKey k' (eraseKey k l)).isSome = true) :
    (lookupKey k' l).isSome = true := by
  induction l with
  | nil => simp [eraseKey, lookupKey] at h
  | cons p ps ih =>
    by_cases hq : p.1 = k'
    · rw [lookupKey, if_pos hq]
      rfl
    · rw [lookupKey, if_neg hq]
      by_cases hp : p.1 = k
      · rw [eraseKey, if_pos hp] at h
        exact h
      · rw [eraseKey, if_neg hp, lookupKey, if_neg hq] at h
        exact ih h

theorem mem_of_mem_eraseKey (k : FKey) (p : FKey × Nat)
    (l : List (FKey × Nat)) (h : p ∈ eraseKey k l) : p ∈ l := by
  induction l with
  | nil => rw [eraseKey] at h; exact absurd h (List.not_mem_nil p)
  | cons q qs ih =>
    by_cases hq : q.1 = k
    · rw [eraseKey, if_pos hq] at h
      exact List.mem_cons_of_mem _ h
    · rw [eraseKey, if_neg hq, List.mem_cons] at h
      rcases h with h | h
      · exact h ▸ List.mem_cons_self _ _
      · exact List.mem_cons_of_mem _ (ih h)

theorem eraseKey_map_fst_sublist (k : FKey) (l : List (FKey × Nat)) :
    ((eraseKey k l).map Prod.fst).Sublist (l.map Prod.fst) := by
  induction l with
  | nil => rw [eraseKey]
  | cons q qs ih =>
    by_cases hq : q.1 = k
    · rw [eraseKey, if_pos hq, List.map_cons]
      exact (List.Sublist.refl _).cons _
    · rw [eraseKey, if_neg hq, List.map_cons, List.map_cons]
      exact ih.cons₂ _

theorem nodup_eraseKey (k : FKey) (l : List (FKey × Nat))
    (h : (l.map Prod.fst).Nodup) : ((eraseKey k l).map Prod.fst).Nodup :=
  (eraseKey_map_fst_sublist k l).nodup h

theorem lookupKey_eq_none_iff (k : FKey) (l : List (FKey × Nat)) :
    lookupKey k l = none ↔ k ∉ l.map Prod.fst := by
  induction l with
  | nil => simp [lookupKey]
  | cons p ps ih =>
    by_cases hp : p.1 = k
    · simp [lookupKey, hp]
    · rw [lookupKey, if_neg hp, List.map_cons, List.mem_cons]
      rw [ih]
      constructor
      · rintro hn (hc | hc)
        · exact hp hc.symm
        · exact hn hc
      · intro hn hc
        exact hn (Or.inr hc)

theorem not_mem_eraseKey_self (k : FKey) (l : List (FKey × Nat))
    (h : (l.map Prod.fst).Nodup) : k ∉ (eraseKey k l).map Prod.fst := by
  induction l with
  | nil => rw [eraseKey]; simp
  | cons p ps ih =>
    rw [List.map_cons, List.nodup_cons] at h
    by_cases hp : p.1 = k
    · rw [eraseKey, if_pos hp]
      exact fun hc => h.1 (hp ▸ hc)
    · rw [eraseKey, if_neg hp, List.map_cons, List.mem_cons]
      rintro (hc | hc)
      · exact hp hc.symm
      · exact ih h.2 hc

theorem lookupKey_eraseKey_self (k : FKey) (l : List (FKey × Nat))
    (h : (l.map Prod.fst).Nodup) : lookupKey k (eraseKey k l) = none :=
  (lookupKey_eq_none_iff k (eraseKey k l)).mpr (not_mem_eraseKey_self k l h)

theorem lookupKey_mem (k : FKey) (v : Nat) (l : List (FKey × Nat))
    (h : lookupKey k l = some v) : (k, v) ∈ l := by
  induction l with
  | nil => exact absurd h (by rw [lookupKey]; simp)
  | cons p ps ih =>
    by_cases hp : p.1 = k
    · rw [lookupKey, if_pos hp] at h
      cases h
      have hpe : (k, p.2) = p := by
        rw [← hp]
      rw [hpe]
      exact List.mem_cons_self _ _
    · rw [lookupKey, if_neg hp] at h
      exact List.mem_cons_of_mem _ (ih h)

theorem lookupKey_isSome_of_mem (k : FKey) (l : List (FKey × Nat))
    (h : k ∈ l.map Prod.fst) : (lookupKey k l).isSome = true := by
  induction l with
  | nil => simp at h
  | cons p ps ih =>
    rw [List.map_cons, List.mem_cons] at h
    by_cases hp : p.1 = k
    · rw [lookupKey, if_pos hp]
      rfl
    · rcases h with h | h
      · exact absurd h.symm hp
      · rw [lookupKey, if_neg hp]
        exact ih h

theorem fkeyGe_total : ∀ a b : FKey, fkeyGe a b = true ∨ fkeyGe b a = true := by
  rintro ⟨p, m⟩ ⟨q, n⟩
  rcases p with _ | p <;> rcases q with _ | q <;>
    simp [fkeyGe, pLt] <;> omega

theorem fkeyGe_trans : ∀ a b c : FKey,
    fkeyGe a b = true → fkeyGe b c = true → fkeyGe a c = true := by
  rintro ⟨p, m⟩ ⟨q, n⟩ ⟨r, u⟩
  rcases p with _ | p <;> rcases q with _ | q <;> rcases r with _ | r <;>
    simp [fkeyGe, pLt] <;> omega

instance : IsTotal FKey (fun a b => fkeyGe a b = true) := ⟨fkeyGe_total⟩

instance : IsTrans FKey (fun a b => fkeyGe a b = true) := ⟨fkeyGe_trans⟩

theorem afLe_total : ∀ a b : AFKey × Nat, afLe a b = true ∨ afLe b a = true := by
  rintro ⟨⟨i, d, f⟩, o⟩ ⟨⟨i', d', f'⟩, o'⟩
  simp [afLe]
  omega

theorem afLe_trans : ∀ a b c : AFKey × Nat,
    afLe a b = true → afLe b c = true → afLe a c = true := by
  rintro ⟨⟨i, d, f⟩, o⟩ ⟨⟨i', d', f'⟩, o'⟩ ⟨⟨i'', d'', f''⟩, o''⟩
  simp [afLe]
  omega

instance : IsTotal (AFKey × Nat) (fun a b => afLe a b = true) := ⟨afLe_total⟩

instance : IsTrans (AFKey × Nat) (fun a b => afLe a b = true) := ⟨afLe_trans⟩

theorem mem_map_fst_iff_lookup (k : FKey) (l : List (FKey × Nat)) :
    k ∈ l.map Prod.fst ↔ (lookupKey k l).isSome = true := by
  constructor
  · exact lookupKey_isSome_of_mem k l
  · intro h
    by_contra hc
    rw [(lookupKey_eq_none_iff k l).mpr hc] at h
    simp at h

/-- A deregistered handle (`fid` no longer `still_active`): `__call__`
hits the `KeyError` branch, returns `None`, calls nothing, and leaves
the state unchanged. -/
theorem finalizeCall_unarmed (cbBeh : CbBeh) (curPid : Nat)
    (s : UtilState) (fid : Nat) (h : stillActive s fid = false) :
    finalizeCall cbBeh curPid s fid = (s, .ok none) := by
  rw [stillActive] at h
  cases hf : s.fins[fid]? with
  | none => simp [finalizeCall, hf]
  | some fin =>
    cases hk : fin.key with
    | none => simp [finalizeCall, hf, hk]
    | some k =>
      rw [hf] at h
      simp only [Option.some_bind] at h
      rw [hk] at h
      have h2 : (lookupKey k s.registry).isSome = false := h
      simp [finalizeCall, hf, hk, h2]

/-- A deregistered handle: `cancel` hits the `KeyError` branch and is a
no-op. -/
theorem finalizeCancel_unarmed (s : UtilState) (fid : Nat)
    (h : stillActive s fid = false) : finalizeCancel s fid = s := by
  rw [stillActive] at h
  cases hf : s.fins[fid]? with
  | none => simp [finalizeCancel, hf]
  | some fin =>
    cases hk : fin.key with
    | none => simp [finalizeCancel, hf, hk]
    | some k =>
      rw [hf] at h
      simp only [Option.some_bind] at h
      rw [hk] at h
      have h2 : (lookupKey k s.registry).isSome = false := h
      simp [finalizeCancel, hf, hk, h2]

/-- Complete case analysis of the state effect of `Finalize.__call__`:
either nothing changes (the `KeyError` branch), or the key is removed
and the state takes one of four shapes — cross-process clear without
callback, normal run with clear, raising run without clear, or removal
without run (a cleared callback field, unreachable from well-formed
states). -/
theorem finalizeCall_shape (cbBeh : CbBeh) (curPid : Nat) (s : UtilState)
    (fid : Nat) :
    (finalizeCall cbBeh curPid s fid).1 = s
    ∨ ∃ fin k, s.fins[fid]? = some fin ∧ fin.key = some k
        ∧ (lookupKey k s.registry).isSome = true
        ∧ ((finalizeCall cbBeh curPid s fid).1 =
              { s with registry := eraseKey k s.registry,
                       fins := s.fins.set fid (clearFin fin) }
           ∨ (finalizeCall cbBeh curPid s fid).1 =
              { s with registry := eraseKey k s.registry,
                       fins := s.fins.set fid (clearFin fin),
                       events := s.events ++ [Event.callback fid] }
           ∨ (finalizeCall cbBeh curPid s fid).1 =
              { s with registry := eraseKey k s.registry,
                       events := s.events ++ [Event.callback fid] }
           ∨ (finalizeCall cbBeh curPid s fid).1 =
              { s with registry := eraseKey k s.registry }) := by
  cases hf : s.fins[fid]? with
  | none => left; simp [finalizeCall, hf]
  | some fin =>
    cases hk : fin.key with
    | none => left; simp [finalizeCall, hf, hk]
    | some k =>
      cases hl : (lookupKey k s.registry).isSome with
      | false => left; simp [finalizeCall, hf, hk, hl]
      | true =>
        right
        refine ⟨fin, k, rfl, hk, hl, ?_⟩
        by_cases hp : fin.pid = curPid
        · cases hcb : fin.callback with
          | none =>
            right; right; right
            simp [finalizeCall, hf, hk, hl, hp, hcb]
          | some cb =>
            cases ha : fin.args with
            | none =>
              right; right; right
              simp [finalizeCall, hf, hk, hl, hp, hcb, ha]
            | some args =>
              cases hw : fin.kwargs with
              | none =>
                right; right; right
                simp [finalizeCall, hf, hk, hl, hp, hcb, ha, hw]
              | some kwargs =>
                cases hb : cbBeh cb args kwargs with
                | ok res =>
                  right; left
                  simp [finalizeCall, hf, hk, hl, hp, hcb, ha, hw, hb]
                | error e =>
                  right; right; left
                  simp [finalizeCall, hf, hk, hl, hp, hcb, ha, hw, hb]
        · left
          simp [finalizeCall, hf, hk, hl, hp]

/-- Complete case analysis of `Finalize.cancel`: a no-op, or removal of
the key with the fields cleared and no callback run. -/
theorem finalizeCancel_shape (s : UtilState) (fid : Nat) :
    finalizeCancel s fid = s
    ∨ ∃ fin k, s.fins[fid]? = some fin ∧ fin.key = some k
        ∧ (lookupKey k s.registry).isSome = true
        ∧ finalizeCancel s fid =
            { s with registry := eraseKey k s.registry,
                     fins := s.fins.set fid (clearFin fin) } := by
  cases hf : s.fins[fid]? with
  | none => left; simp [finalizeCancel, hf]
  | some fin =>
    cases hk : fin.key with
    | none => left; simp [finalizeCancel, hf, hk]
    | some k =>
      cases hl : (lookupKey k s.registry).isSome with
      | false => left; simp [finalizeCancel, hf, hk, hl]
      | true =>
        right
        exact ⟨fin, k, rfl, hk, hl, by simp [finalizeCancel, hf, hk, hl]⟩

theorem lookup_erase_isSome_false (k k' : FKey) (l : List (FKey × Nat))
    (h : (lookupKey k' l).isSome = false) :
    (lookupKey k' (eraseKey k l)).isSome = false := by
  cases hres : (lookupKey k' (eraseKey k l)).isSome with
  | false => rfl
  | true =>
    rw [lookupKey_isSome_of_erase k k' l hres] at h
    exact h

/-- An entry that is no longer registered stays unregistered across a
state change that only erases a registry key and possibly clears the
`Finalize` object at some other index. -/
theorem stillActive_false_of_parts (s' s : UtilState) (g : Nat) (k : FKey)
    (hfins : s'.fins[g]? = s.fins[g]?)
    (hreg : s'.registry = eraseKey k s.registry)
    (hg : stillActive s g = false) : stillActive s' g = false := by
  rw [stillActive] at hg ⊢
  rw [hfins, hreg]
  cases hc : (s.fins[g]?).bind Finalizer.key with
  | none => rfl
  | some k' =>
    rw [hc] at hg
    have hgl : (lookupKey k' s.registry).isSome = false := hg
    exact lookup_erase_isSome_false k k' s.registry hgl

/-- Registry well-formedness survives the removal of one key together
with the optional clearing of the `Finalize` object that held it. -/
theorem WFreg_erase_clear (s : UtilState) (fid : Nat) (fin : Finalizer)
    (k : FKey) (hf : s.fins[fid]? = some fin) (hk : fin.key = some k)
    (hwf : WFreg s) (s' : UtilState)
    (hreg : s'.registry = eraseKey k s.registry)
    (hfins : s'.fins = s.fins.set fid (clearFin fin) ∨ s'.fins = s.fins) :
    WFreg s' := by
  obtain ⟨hkm, hnd, hinj⟩ := hwf
  refine ⟨?_, ?_, ?_⟩
  · intro p hp
    rw [hreg] at hp
    have hmem := mem_of_mem_eraseKey k p s.registry hp
    have hold := hkm p hmem
    rcases hfins with hfi | hfi
    · by_cases hpf : p.2 = fid
      · exfalso
        rw [hpf, hf] at hold
        simp only [Option.some_bind] at hold
        rw [hk] at hold
        have hpk : p.1 = k := by
          injection hold with hh
          exact hh.symm
        have hmm : p.1 ∈ (eraseKey k s.registry).map Prod.fst :=
          List.mem_map_of_mem Prod.fst hp
        rw [hpk] at hmm
        exact not_mem_eraseKey_self k s.registry hnd hmm
      · rw [hfi, List.getElem?_set_ne (fun hc => hpf hc.symm)]
        exact hold
    · rw [hfi]
      exact hold
  · rw [hreg]
    exact nodup_eraseKey k s.registry hnd
  · intro i hi j hj hsome heq
    rcases hfins with hfi | hfi
    · rw [hfi, List.length_set] at hi hj
      have hflt : fid < s.fins.length := (List.getElem?_eq_some_iff.mp hf).1
      by_cases hif : i = fid
      · exfalso
        rw [hif, hfi, List.getElem?_set_self hflt] at hsome
        simp [clearFin] at hsome
      · by_cases hjf : j = fid
        · exfalso
          rw [hfi, List.getElem?_set_ne (fun hc => hif hc.symm)] at hsome
          rw [hfi, List.getElem?_set_ne (fun hc => hif hc.symm), hjf,
              List.getElem?_set_self hflt] at heq
          rw [heq] at hsome
          simp [clearFin] at hsome
        · rw [hfi, List.getElem?_set_ne (fun hc => hif hc.symm)] at hsome
          rw [hfi, List.getElem?_set_ne (fun hc => hif hc.symm),
              List.getElem?_set_ne (fun hc => hjf hc.symm)] at heq
          exact hinj i hi j hj hsome heq
    · rw [hfi] at hi hj hsome heq
      exact hinj i hi j hj hsome heq

/-- A `Finalize` object whose fields were cleared is no longer
`still_active`. -/
theorem stillActive_cleared (s' s : UtilState) (fid : Nat)
    (fin : Finalizer) (hf : s.fins[fid]? = some fin)
    (hfi : s'.fins = s.fins.set fid (clearFin fin)) :
    stillActive s' fid = false := by
  have hflt : fid < s.fins.length := (List.getElem?_eq_some_iff.mp hf).1
  rw [stillActive, hfi, List.getElem?_set_self hflt]
  rfl

/-- A `Finalize` object whose key was erased from a duplicate-free
registry is no longer `still_active`, even with its fields intact. -/
theorem stillActive_unchanged_erased (s' s : UtilState) (fid : Nat)
    (fin : Finalizer) (k : FKey) (hf : s.fins[fid]? = some fin)
    (hk : fin.key = some k) (hnd : (s.registry.map Prod.fst).Nodup)
    (hfi : s'.fins = s.fins) (hreg : s'.registry = eraseKey k s.registry) :
    stillActive s' fid = false := by
  rw [stillActive, hfi, hf]
  simp only [Option.some_bind]
  rw [hk, hreg]
  show (lookupKey k (eraseKey k s.registry)).isSome = false
  rw [lookupKey_eraseKey_self k s.registry hnd]
  rfl

theorem cbCount_append_callback (s' s : UtilState) (g f : Nat)
    (h : s'.events = s.events ++ [Event.callback f]) :
    cbCount g s' = cbCount g s + (if g = f then 1 else 0) := by
  rw [cbCount, cbCount, h, List.count_append]
  by_cases hgf : g = f <;> simp [hgf]

theorem cbCount_same (s' s : UtilState) (g : Nat)
    (h : s'.events = s.events) : cbCount g s' = cbCount g s := by
  rw [cbCount, cbCount, h]

/-- The entry `fid` is `still_active` whenever its `_key` field points
at a present registry key. -/
theorem stillActive_intro (s : UtilState) (fid : Nat) (fin : Finalizer)
    (k : FKey) (hf : s.fins[fid]? = some fin) (hk : fin.key = some k)
    (hl : (lookupKey k s.registry).isSome = true) :
    stillActive s fid = true := by
  rw [stillActive, hf]
  simp only [Option.some_bind]
  rw [hk]
  exact hl

/-- One `__call__` never increases any entry's execution budget: the
executions it records are paid for by registry removals. -/
theorem finalizeCall_budget (cbBeh : CbBeh) (curPid : Nat) (s : UtilState)
    (fid g : Nat) (hnd : (s.registry.map Prod.fst).Nodup) :
    budget g (finalizeCall cbBeh curPid s fid).1 ≤ budget g s := by
  rcases finalizeCall_shape cbBeh curPid s fid with h | ⟨fin, k, hf, hk, hl, hsh⟩
  · rw [h]
  · have hact : stillActive s fid = true := stillActive_intro s fid fin k hf hk hl
    by_cases hgf : g = fid
    · subst hgf
      have hb : budget g s = cbCount g s + 1 := by
        rw [budget, hact]
        simp
      rw [hb]
      rcases hsh with hs' | hs' | hs' | hs'
      all_goals rw [budget]
      · rw [stillActive_cleared _ s g fin hf (by rw [hs']),
            cbCount_same _ s g (by rw [hs'])]
        exact Nat.le_succ _
      · rw [stillActive_cleared _ s g fin hf (by rw [hs']),
            cbCount_append_callback _ s g g (by rw [hs'])]
        simp
      · rw [stillActive_unchanged_erased _ s g fin k hf hk hnd
              (by rw [hs']) (by rw [hs']),
            cbCount_append_callback _ s g g (by rw [hs'])]
        simp
      · rw [stillActive_unchanged_erased _ s g fin k hf hk hnd
              (by rw [hs']) (by rw [hs']),
            cbCount_same _ s g (by rw [hs'])]
        exact Nat.le_succ _
    · have hcnt : cbCount g (finalizeCall cbBeh curPid s fid).1 = cbCount g s := by
        rcases hsh with hs' | hs' | hs' | hs'
        · exact cbCount_same _ s g (by rw [hs'])
        · rw [cbCount_append_callback _ s g fid (by rw [hs']), if_neg hgf]
          omega
        · rw [cbCount_append_callback _ s g fid (by rw [hs']), if_neg hgf]
          omega
        · exact cbCount_same _ s g (by rw [hs'])
      cases hga : stillActive s g with
      | true =>
        rw [budget, budget, hga, hcnt]
        have h1 : (if (true = true) then (1 : Nat) else 0) = 1 := rfl
        rw [h1]
        split <;> omega
      | false =>
        have hga' : stillActive (finalizeCall cbBeh curPid s fid).1 g = false := by
          have hfg : (finalizeCall cbBeh curPid s fid).1.fins[g]? = s.fins[g]? := by
            rcases hsh with hs' | hs' | hs' | hs' <;>
              rw [hs'] <;>
              first
                | rfl
                | exact List.getElem?_set_ne (fun hc => hgf hc.symm)
          have hrg : (finalizeCall cbBeh curPid s fid).1.registry =
              eraseKey k s.registry := by
            rcases hsh with hs' | hs' | hs' | hs' <;> rw [hs']
          exact stillActive_false_of_parts _ s g k hfg hrg hga
        rw [budget, budget, hga, hga', hcnt]

/-- One `__call__` preserves registry well-formedness. -/
theorem finalizeCall_WFreg (cbBeh : CbBeh) (curPid : Nat) (s : UtilState)
    (fid : Nat) (hwf : WFreg s) : WFreg (finalizeCall cbBeh curPid s fid).1 := by
  rcases finalizeCall_shape cbBeh curPid s fid with h | ⟨fin, k, hf, hk, hl, hsh⟩
  · rw [h]
    exact hwf
  · refine WFreg_erase_clear s fid fin k hf hk hwf _ ?_ ?_
    · rcases hsh with hs' | hs' | hs' | hs' <;> rw [hs']
    · rcases hsh with hs' | hs' | hs' | hs' <;> rw [hs'] <;> simp

/-- One `cancel` never increases any entry's execution budget. -/
theorem finalizeCancel_budget (s : UtilState) (fid g : Nat) :
    budget g (finalizeCancel s fid) ≤ budget g s := by
  rcases finalizeCancel_shape s fid with h | ⟨fin, k, hf, hk, hl, hsh⟩
  · rw [h]
  · have hcnt : cbCount g (finalizeCancel s fid) = cbCount g s :=
      cbCount_same _ s g (by rw [hsh])
    by_cases hgf : g = fid
    · subst hgf
      rw [budget, budget, hcnt,
          stillActive_cleared _ s g fin hf (by rw [hsh])]
      have h0 : (if (false = true) then (1 : Nat) else 0) = 0 := rfl
      rw [h0]
      split <;> omega
    · cases hga : stillActive s g with
      | true =>
        rw [budget, budget, hga, hcnt]
        have h1 : (if (true = true) then (1 : Nat) else 0) = 1 := rfl
        rw [h1]
        split <;> omega
      | false =>
        have hga' : stillActive (finalizeCancel s fid) g = false := by
          refine stillActive_false_of_parts _ s g k ?_ (by rw [hsh]) hga
          rw [hsh]
          exact List.getElem?_set_ne (fun hc => hgf hc.symm)
        rw [budget, budget, hga, hga', hcnt]

/-- One `cancel` preserves registry well-formedness. -/
theorem finalizeCancel_WFreg (s : UtilState) (fid : Nat) (hwf : WFreg s) :
    WFreg (finalizeCancel s fid) := by
  rcases finalizeCancel_shape s fid with h | ⟨fin, k, hf, hk, hl, hsh⟩
  · rw [h]
    exact hwf
  · exact WFreg_erase_clear s fid fin k hf hk hwf _ (by rw [hsh])
      (Or.inl (by rw [hsh]))

/-- `__call__` appends at most the one execution event of its own
entry. -/
theorem finalizeCall_events_shape (cbBeh : CbBeh) (curPid : Nat)
    (s : UtilState) (fid : Nat) :
    (finalizeCall cbBeh curPid s fid).1.events = s.events
    ∨ (finalizeCall cbBeh curPid s fid).1.events
        = s.events ++ [Event.callback fid] := by
  rcases finalizeCall_shape cbBeh curPid s fid with h | ⟨fin, k, _, _, _, hsh⟩
  · left
    rw [h]
  · rcases hsh with hs' | hs' | hs' | hs'
    · left; rw [hs']
    · right; rw [hs']
    · right; rw [hs']
    · left; rw [hs']

/-- `cancel` records no event. -/
theorem finalizeCancel_events (s : UtilState) (fid : Nat) :
    (finalizeCancel s fid).events = s.events := by
  rcases finalizeCancel_shape s fid with h | ⟨fin, k, _, _, _, hsh⟩
  · rw [h]
  · rw [hsh]

/-- The loop of `_run_finalizers` preserves well-formedness and never
increases any entry's execution budget. -/
theorem runFinLoop_budget (cbBeh : CbBeh) (curPid : Nat) (keys : List FKey)
    (s : UtilState) (hwf : WFreg s) :
    WFreg (runFinLoop cbBeh curPid keys s) ∧
      ∀ g, budget g (runFinLoop cbBeh curPid keys s) ≤ budget g s := by
  induction keys generalizing s with
  | nil => exact ⟨hwf, fun g => le_refl _⟩
  | cons k ks ih =>
    cases hl : lookupKey k s.registry with
    | none =>
      simp only [runFinLoop, hl]
      exact ih s hwf
    | some fid =>
      simp only [runFinLoop, hl]
      have hwf1 := finalizeCall_WFreg cbBeh curPid s fid hwf
      obtain ⟨hwf2, hbud⟩ := ih _ hwf1
      exact ⟨hwf2, fun g => le_trans (hbud g)
        (finalizeCall_budget cbBeh curPid s fid g hwf.2.1)⟩

theorem WFreg_clear_registry (s' s : UtilState) (hreg : s'.registry = [])
    (hfins : s'.fins = s.fins) (hwf : WFreg s) : WFreg s' := by
  refine ⟨?_, ?_, ?_⟩
  · intro p hp
    rw [hreg] at hp
    exact absurd hp (List.not_mem_nil p)
  · rw [hreg]
    simp
  · intro i hi j hj hs he
    rw [hfins] at hi hj hs he
    exact hwf.2.2 i hi j hj hs he

theorem budget_clear_registry (s' s : UtilState) (g : Nat)
    (hreg : s'.registry = []) (hfins : s'.fins = s.fins)
    (hev : s'.events = s.events) : budget g s' ≤ budget g s := by
  have hsa : stillActive s' g = false := by
    rw [stillActive, hfins, hreg]
    cases hc : (s.fins[g]?).bind Finalizer.key with
    | none => rfl
    | some k => rfl
  rw [budget, budget, hsa, cbCount_same s' s g hev]
  have h0 : (if (false = true) then (1 : Nat) else 0) = 0 := rfl
  rw [h0]
  split <;> omega

/-- `_run_finalizers` preserves well-formedness and never increases any
entry's execution budget. -/
theorem runFinalizers_budget (cbBeh : CbBeh) (curPid : Nat)
    (minpriority : Option Int) (s : UtilState) (hwf : WFreg s) :
    WFreg (runFinalizers cbBeh curPid minpriority s) ∧
      ∀ g, budget g (runFinalizers cbBeh curPid minpriority s) ≤ budget g s := by
  obtain ⟨hwf1, hbud⟩ :=
    runFinLoop_budget cbBeh curPid (selKeys s minpriority) s hwf
  cases minpriority with
  | none =>
    exact ⟨WFreg_clear_registry _ (runFinLoop cbBeh curPid (selKeys s none) s)
        rfl rfl hwf1,
      fun g => le_trans (budget_clear_registry _
        (runFinLoop cbBeh curPid (selKeys s none) s) g rfl rfl rfl) (hbud g)⟩
  | some m => exact ⟨hwf1, hbud⟩

/-- Any single client operation preserves well-formedness and never
increases any entry's execution budget. -/
theorem stepOp_budget (cbBeh : CbBeh) (curPid : Nat) (s : UtilState)
    (op : FOp) (hwf : WFreg s) :
    WFreg (stepOp cbBeh curPid s op) ∧
      ∀ g, budget g (stepOp cbBeh curPid s op) ≤ budget g s := by
  cases op with
  | invoke fid =>
    exact ⟨finalizeCall_WFreg cbBeh curPid s fid hwf,
      fun g => finalizeCall_budget cbBeh curPid s fid g hwf.2.1⟩
  | cancel fid =>
    exact ⟨finalizeCancel_WFreg s fid hwf,
      fun g => finalizeCancel_budget s fid g⟩
  | runAll mp => exact runFinalizers_budget cbBeh curPid mp s hwf

/-- Any operation sequence preserves well-formedness and never
increases any entry's execution budget. -/
theorem runOps_budget (cbBeh : CbBeh) (curPid : Nat) (ops : List FOp)
    (s : UtilState) (hwf : WFreg s) :
    WFreg (runOps cbBeh curPid ops s) ∧
      ∀ g, budget g (runOps cbBeh curPid ops s) ≤ budget g s := by
  induction ops generalizing s with
  | nil => exact ⟨hwf, fun g => le_refl _⟩
  | cons op ops ih =>
    obtain ⟨hwf1, hb1⟩ := stepOp_budget cbBeh curPid s op hwf
    obtain ⟨hwf2, hb2⟩ := ih _ hwf1
    exact ⟨hwf2, fun g => le_trans (hb2 g) (hb1 g)⟩

/-- A sample registered `Finalize` object for concrete runs. -/
def sampleFin : Finalizer :=
  { weakref := some 7, callback := some 1, args := some [2],
    kwargs := some [], key := some (some 5, 0), pid := 42 }

/-- A sample well-formed state holding the single entry `sampleFin`
registered as handle `0` under key `(5, 0)`. -/
def sampleState : UtilState :=
  { fins := [sampleFin], registry := [((some 5, 0), 0)], counter := 1,
    afRegistry := [], afCounter := 0, exiting := some false, events := [] }

/-- A sample callback behaviour that always returns normally. -/
def sampleCb : CbBeh := fun _ _ _ => .ok 0

/-- C1: across any sequence of explicit invoke, cancel and batch-run
operations from a well-formed state, an entry's callback executes at
most once; and once the entry's key has left the registry, a further
`__call__` returns `None` without running the callback or changing the
state, and a further `cancel` is a no-op. -/
theorem finalize_at_most_once (cbBeh : CbBeh) (curPid : Nat)
    (s : UtilState) (ops : List FOp) (fid : Nat) (hwf : WFreg s)
    (h0 : cbCount fid s = 0) :
    cbCount fid (runOps cbBeh curPid ops s) ≤ 1
    ∧ (stillActive (runOps cbBeh curPid ops s) fid = false →
        finalizeCall cbBeh curPid (runOps cbBeh curPid ops s) fid
            = (runOps cbBeh curPid ops s, .ok none)
        ∧ finalizeCancel (runOps cbBeh curPid ops s) fid
            = runOps cbBeh curPid ops s) := by
  obtain ⟨hwf', hbud⟩ := runOps_budget cbBeh curPid ops s hwf
  constructor
  · have h1 := hbud fid
    rw [budget, budget, h0] at h1
    have h2 : (if stillActive s fid = true then (1 : Nat) else 0) ≤ 1 := by
      split <;> omega
    have h3 : cbCount fid (runOps cbBeh curPid ops s)
        ≤ cbCount fid (runOps cbBeh curPid ops s)
          + (if stillActive (runOps cbBeh curPid ops s) fid = true
             then (1 : Nat) else 0) := Nat.le_add_right _ _
    omega
  · intro hna
    exact ⟨finalizeCall_unarmed cbBeh curPid _ fid hna,
      finalizeCancel_unarmed _ fid hna⟩

/-- Witness for C1 at a concrete state: one registered entry, invoked
then cancelled then batch-run; the callback runs exactly once. -/
theorem finalize_at_most_once_witness :
    WFreg sampleState ∧ cbCount 0 sampleState = 0 ∧
    cbCount 0 (runOps sampleCb 42
      [FOp.invoke 0, FOp.cancel 0, FOp.runAll none] sampleState) ≤ 1 :=
  ⟨by decide, by decide,
    (finalize_at_most_once sampleCb 42 sampleState
      [FOp.invoke 0, FOp.cancel 0, FOp.runAll none] 0
      (by decide) (by decide)).1⟩

/-- C5: a full `_run_finalizers()` (no `minpriority`) ends with
`_finalizer_registry.clear()`: the registry is empty afterwards, every
entry dropped — including priority-`None` object-bound entries that
were never selected and entries skipped during the run. -/
theorem run_finalizers_full_clears (cbBeh : CbBeh) (curPid : Nat)
    (s : UtilState) : (runFinalizers cbBeh curPid none s).registry = [] := rfl

/-- C4: an entry whose recorded `_pid` differs from the current process
id: `__call__` removes the entry from the registry (and clears its
fields), returns `None`, and records no callback execution; with a
duplicate-free registry the key is gone afterwards. -/
theorem finalize_call_cross_process (cbBeh : CbBeh) (curPid : Nat)
    (s : UtilState) (fid : Nat) (fin : Finalizer) (k : FKey)
    (hf : s.fins[fid]? = some fin) (hk : fin.key = some k)
    (hl : (lookupKey k s.registry).isSome = true)
    (hp : fin.pid ≠ curPid) :
    finalizeCall cbBeh curPid s fid =
      ({ s with registry := eraseKey k s.registry,
                fins := s.fins.set fid (clearFin fin) }, .ok none)
    ∧ (finalizeCall cbBeh curPid s fid).1.events = s.events
    ∧ ((s.registry.map Prod.fst).Nodup →
        lookupKey k (finalizeCall cbBeh curPid s fid).1.registry = none) := by
  have hmain : finalizeCall cbBeh curPid s fid =
      ({ s with registry := eraseKey k s.registry,
                fins := s.fins.set fid (clearFin fin) }, .ok none) := by
    simp [finalizeCall, hf, hk, hl, hp]
  refine ⟨hmain, by rw [hmain], fun hnd => ?_⟩
  rw [hmain]
  exact lookupKey_eraseKey_self k s.registry hnd

/-- Witness for C4: the `sampleState` entry was registered in process
42; invoking it in process 43 does not run its callback. -/
theorem finalize_call_cross_process_witness :
    sampleFin.pid ≠ 43 ∧
    (finalizeCall sampleCb 43 sampleState 0).1.events = sampleState.events :=
  ⟨by decide, (finalize_call_cross_process sampleCb 43 sampleState 0
      sampleFin (some 5, 0) (by decide) (by decide) (by decide)
      (by decide)).2.1⟩

/-- C10 (implicit): a present non-`int` `exitpriority` makes
`Finalize.__init__` raise `TypeError` before the weak reference is
established and before any entry is inserted: the returned state is
exactly the input state. -/
theorem finalize_init_type_error (s : UtilState) (obj : Option Nat)
    (cb : Nat) (args : List Nat) (kwargs : List (Nat × Nat)) (v : PyVal)
    (curPid : Nat) (hv : v.isInt = false) :
    finalizeInit s obj cb args kwargs (some v) curPid
      = (s, .error .typeError) := by
  simp [finalizeInit, hv]

/-- Witness for C10: a string `exitpriority` is rejected with the state
untouched. -/
theorem finalize_init_type_error_witness :
    PyVal.isInt (PyVal.str "x") = false ∧
    finalizeInit sampleState none 1 [] [] (some (PyVal.str "x")) 42
      = (sampleState, .error .typeError) :=
  ⟨rfl, finalize_init_type_error sampleState none 1 [] []
    (PyVal.str "x") 42 rfl⟩

/-- C9: with a well-typed `exitpriority`, registration raises
`ValueError` exactly when both the owner and the priority are absent;
when at least one is present it succeeds, draws the fresh sequence
number from the process-wide counter (which increments), and inserts
the entry keyed `(priority, sequence)` into the registry. -/
theorem finalize_init_spec (s : UtilState) (obj : Option Nat) (cb : Nat)
    (args : List Nat) (kwargs : List (Nat × Nat)) (priority : Option Int)
    (curPid : Nat) :
    (obj = none ∧ priority = none →
      finalizeInit s obj cb args kwargs (priority.map PyVal.int) curPid
        = (s, .error .valueError))
    ∧ (obj.isSome ∨ priority.isSome →
        finalizeInit s obj cb args kwargs (priority.map PyVal.int) curPid
          = ({ s with
                fins := s.fins ++
                  [{ weakref := obj,
                     callback := some cb,
                     args := some args,
                     kwargs := some kwargs,
                     key := some (priority, s.counter),
                     pid := curPid }],
                counter := s.counter + 1,
                registry := s.registry
                  ++ [((priority, s.counter), s.fins.length)] },
             .ok s.fins.length)) := by
  constructor
  · rintro ⟨ho, hp⟩
    subst ho
    subst hp
    rfl
  · intro h
    cases obj with
    | none =>
      cases priority with
      | none => simp at h
      | some p => simp [finalizeInit, PyVal.isInt, PyVal.toInt]
    | some o =>
      cases priority with
      | none => simp [finalizeInit, PyVal.isInt, PyVal.toInt]
      | some p => simp [finalizeInit, PyVal.isInt, PyVal.toInt]

/-- Witness for C9: both-absent registration fails; an owner-only
registration succeeds with sequence number 1 drawn from the counter. -/
theorem finalize_init_spec_witness :
    finalizeInit sampleState none 1 [] [] none 42
        = (sampleState, .error .valueError)
    ∧ finalizeInit sampleState (some 9) 1 [] [] none 42
        = ({ sampleState with
              fins := sampleState.fins ++
                [{ weakref := some 9,
                   callback := some 1,
                   args := some [],
                   kwargs := some [],
                   key := some (none, 1),
                   pid := 42 }],
              counter := 2,
              registry := sampleState.registry ++ [((none, 1), 1)] },
           .ok 1) :=
  ⟨(finalize_init_spec sampleState none 1 [] [] none 42).1 ⟨rfl, rfl⟩,
   (finalize_init_spec sampleState (some 9) 1 [] [] none 42).2 (.inl rfl)⟩

/-- A registry binding that is live for a batch in process `curPid`:
it points at a `Finalize` object whose `_key` field matches, whose
`_pid` is the current process, and whose callable fields are intact. -/
def liveEntryB (curPid : Nat) (s : UtilState) (p : FKey × Nat) : Bool :=
  match s.fins[p.2]? with
  | none => false
  | some fin =>
    fin.key == some p.1 && fin.pid == curPid && fin.callback.isSome
      && fin.args.isSome && fin.kwargs.isSome

/-- The loop of `_run_finalizers` over distinct present keys whose
entries are all live: it invokes exactly the listed entries in list
order, whatever the callbacks do (results and raised exceptions are
both recorded as one execution event and the loop continues). -/
theorem runFinLoop_live_events (cbBeh : CbBeh) (curPid : Nat)
    (keys : List FKey) (s : UtilState) (hnd : keys.Nodup)
    (hsub : ∀ k ∈ keys, k ∈ s.registry.map Prod.fst)
    (hrnd : (s.registry.map Prod.fst).Nodup)
    (hlive : ∀ p ∈ s.registry, liveEntryB curPid s p = true) :
    (runFinLoop cbBeh curPid keys s).events
      = s.events ++ keys.map
          (fun k => Event.callback ((lookupKey k s.registry).getD 0)) := by
  induction keys generalizing s with
  | nil => simp [runFinLoop]
  | cons k ks ih =>
    have hkmem : k ∈ s.registry.map Prod.fst := hsub k (List.mem_cons_self k ks)
    have hlks : (lookupKey k s.registry).isSome = true :=
      lookupKey_isSome_of_mem k s.registry hkmem
    obtain ⟨fid, hlook⟩ := Option.isSome_iff_exists.mp hlks
    have hpmem : (k, fid) ∈ s.registry := lookupKey_mem k fid s.registry hlook
    have hlv := hlive (k, fid) hpmem
    rw [liveEntryB] at hlv
    cases hf : s.fins[(k, fid).2]? with
    | none => rw [hf] at hlv; exact absurd hlv (by simp)
    | some fin =>
      rw [hf] at hlv
      simp only [Bool.and_eq_true, beq_iff_eq] at hlv
      obtain ⟨⟨⟨⟨hkey, hpid⟩, hcb⟩, ha⟩, hw⟩ := hlv
      obtain ⟨cb, hcbv⟩ := Option.isSome_iff_exists.mp hcb
      obtain ⟨args, hav⟩ := Option.isSome_iff_exists.mp ha
      obtain ⟨kwargs, hwv⟩ := Option.isSome_iff_exists.mp hw
      have hknd : k ∉ ks ∧ ks.Nodup := List.nodup_cons.mp hnd
      have hstep : ∃ fins',
          (finalizeCall cbBeh curPid s fid).1 =
            { s with registry := eraseKey k s.registry, fins := fins',
                     events := s.events ++ [Event.callback fid] }
          ∧ ∀ g, g ≠ fid → fins'[g]? = s.fins[g]? := by
        cases hb : cbBeh cb args kwargs with
        | ok res =>
          refine ⟨s.fins.set fid (clearFin fin), ?_, ?_⟩
          · simp [finalizeCall, hf, hkey, hlks, hpid, hcbv, hav, hwv, hb]
          · intro g hg
            exact List.getElem?_set_ne (fun hc => hg hc.symm)
        | error e =>
          refine ⟨s.fins, ?_, fun g hg => rfl⟩
          simp [finalizeCall, hf, hkey, hlks, hpid, hcbv, hav, hwv, hb]
      obtain ⟨fins', hs', hgets⟩ := hstep
      have hrnd' : ((eraseKey k s.registry).map Prod.fst).Nodup :=
        nodup_eraseKey k s.registry hrnd
      have hih := ih
        { s with registry := eraseKey k s.registry, fins := fins',
                 events := s.events ++ [Event.callback fid] }
        hknd.2
        (by
          intro k' hk'
          have hk'mem := hsub k' (List.mem_cons_of_mem k hk')
          have hne : k' ≠ k := fun hc => hknd.1 (hc ▸ hk')
          rw [mem_map_fst_iff_lookup] at hk'mem ⊢
          show (lookupKey k' (eraseKey k s.registry)).isSome = true
          rw [lookupKey_erase_ne k k' s.registry hne]
          exact hk'mem)
        hrnd'
        (by
          intro p hp
          have hpR : p ∈ s.registry := mem_of_mem_eraseKey k p s.registry hp
          have hlv2 := hlive p hpR
          have hpf : p.2 ≠ fid := by
            intro hc
            rw [liveEntryB, hc, hf] at hlv2
            simp only [Bool.and_eq_true, beq_iff_eq] at hlv2
            have hpk : p.1 = k := by
              have h1 := hlv2.1.1.1.1
              rw [hkey] at h1
              injection h1 with h2
              exact h2.symm
            have hmm : p.1 ∈ (eraseKey k s.registry).map Prod.fst :=
              List.mem_map_of_mem Prod.fst hp
            rw [hpk] at hmm
            exact not_mem_eraseKey_self k s.registry hrnd hmm
          rw [liveEntryB] at hlv2 ⊢
          show (match fins'[p.2]? with
            | none => false
            | some fin =>
              fin.key == some p.1 && fin.pid == curPid && fin.callback.isSome
                && fin.args.isSome && fin.kwargs.isSome) = true
          rw [hgets p.2 hpf]
          exact hlv2)
      simp only [runFinLoop, hlook]
      rw [hs', hih]
      have hmap : ks.map (fun k' => Event.callback
            ((lookupKey k' (eraseKey k s.registry)).getD 0))
          = ks.map (fun k' => Event.callback
            ((lookupKey k' s.registry).getD 0)) := by
        refine List.map_eq_map_iff.mpr ?_
        intro k' hk'
        have hne : k' ≠ k := fun hc => hknd.1 (hc ▸ hk')
        rw [lookupKey_erase_ne k k' s.registry hne]
      show s.events ++ [Event.callback fid] ++ ks.map (fun k' => Event.callback
          ((lookupKey k' (eraseKey k s.registry)).getD 0))
        = s.events ++ (k :: ks).map (fun k' => Event.callback
          ((lookupKey k' s.registry).getD 0))
      rw [hmap, List.map_cons, hlook, List.append_assoc, List.singleton_append]
      rfl

/-- When every registered entry is live in the current process, a
batch run appends exactly one execution event per selected key, in
selection order, for any callback behaviour. -/
theorem runFinalizers_live_events (cbBeh : CbBeh) (curPid : Nat)
    (minpriority : Option Int) (s : UtilState)
    (hrnd : (s.registry.map Prod.fst).Nodup)
    (hlive : ∀ p ∈ s.registry, liveEntryB curPid s p = true) :
    (runFinalizers cbBeh curPid minpriority s).events
      = s.events ++ (selKeys s minpriority).map
          (fun k => Event.callback ((lookupKey k s.registry).getD 0)) := by
  have hperm : (selKeys s minpriority).Perm
      ((s.registry.map Prod.fst).filter (selP minpriority)) :=
    List.perm_insertionSort _ _
  have hkeys : (runFinLoop cbBeh curPid (selKeys s minpriority) s).events
      = s.events ++ (selKeys s minpriority).map
          (fun k => Event.callback ((lookupKey k s.registry).getD 0)) := by
    refine runFinLoop_live_events cbBeh curPid _ s ?_ ?_ hrnd hlive
    · exact hperm.nodup_iff.mpr (hrnd.filter _)
    · intro k hk
      have hkf := hperm.mem_iff.mp hk
      exact List.mem_of_mem_filter hkf
  cases minpriority with
  | none => exact hkeys
  | some m => exact hkeys

/-- C2: `_run_finalizers` selects exactly the keys present at selection
time whose priority is not `None` (and `≥ minpriority` when given) —
`selKeys` is a permutation of that filter — orders them descending by
the lexicographic `(priority, sequence)` order (highest priority first,
most recently registered first within a priority), and, when every
registered entry is live in the current process, invokes exactly those
entries in exactly that order. -/
theorem run_finalizers_order (cbBeh : CbBeh) (curPid : Nat)
    (minpriority : Option Int) (s : UtilState)
    (hrnd : (s.registry.map Prod.fst).Nodup)
    (hlive : ∀ p ∈ s.registry, liveEntryB curPid s p = true) :
    (selKeys s minpriority).Perm
        ((s.registry.map Prod.fst).filter (selP minpriority))
    ∧ (selKeys s minpriority).Pairwise (fun a b => fkeyGe a b = true)
    ∧ (runFinalizers cbBeh curPid minpriority s).events
        = s.events ++ (selKeys s minpriority).map
            (fun k => Event.callback ((lookupKey k s.registry).getD 0)) :=
  ⟨List.perm_insertionSort _ _, List.sorted_insertionSort _ _,
    runFinalizers_live_events cbBeh curPid minpriority s hrnd hlive⟩

/-- A registered entry with a given priority, sequence number, callback
identity and owning pid 42, used by the ordering scenarios. -/
def prioFin (p : Option Int) (seq : Nat) (cb : Nat) : Finalizer :=
  { weakref := some (100 + seq), callback := some cb, args := some [],
    kwargs := some [], key := some (p, seq), pid := 42 }

/-- The spec scenario state: entries registered in order with
priorities `[10, 10, 5, None]` as handles `0, 1, 2, 3`. -/
def orderState : UtilState :=
  { fins := [prioFin (some 10) 0 10, prioFin (some 10) 1 11,
             prioFin (some 5) 2 12, prioFin none 3 13],
    registry := [((some 10, 0), 0), ((some 10, 1), 1),
                 ((some 5, 2), 2), ((none, 3), 3)],
    counter := 4, afRegistry := [], afCounter := 0,
    exiting := some false, events := [] }

/-- Witness for C2, the spec scenario: priorities `[10, 10, 5, None]`
registered in that order; a full run selects the keys in order
second-10, first-10, 5 and invokes the entries in that order, dropping
the `None`-priority entry. -/
theorem run_finalizers_order_witness :
    selKeys orderState none = [(some 10, 1), (some 10, 0), (some 5, 2)]
    ∧ (runFinalizers sampleCb 42 none orderState).events
        = [Event.callback 1, Event.callback 0, Event.callback 2] := by
  refine ⟨by decide, ?_⟩
  rw [(run_finalizers_order sampleCb 42 none orderState (by decide)
    (by decide)).2.2]
  decide

/-- The loop of `_run_after_forkers` invokes every item in list order,
whatever each `func(obj)` does — a raised exception is caught and the
loop continues. -/
theorem runAfLoop_events (afBeh : AfBeh) (items : List (AFKey × Nat))
    (s : UtilState) :
    (runAfLoop afBeh items s).events
      = s.events ++ items.map (fun it => Event.afterfork it.1.2.2 it.2) := by
  induction items generalizing s with
  | nil => simp [runAfLoop]
  | cons it rest ih =>
    obtain ⟨k, obj⟩ := it
    cases hb : afBeh k.2.2 obj with
    | ok u =>
      simp only [runAfLoop, hb]
      rw [ih]
      simp
    | error e =>
      simp only [runAfLoop, hb]
      rw [ih]
      simp

/-- A sample after-fork behaviour that always returns. -/
def sampleAf : AfBeh := fun _ _ => .ok ()

/-- A sample after-fork behaviour that always raises. -/
def failAf : AfBeh := fun _ _ => .error 7

/-- A sample callback behaviour that always raises. -/
def raiseCb : CbBeh := fun _ _ _ => .error 99

/-- A sample state with three after-fork items registered in order
(counter values 0, 1, 2). -/
def afState : UtilState :=
  { fins := [], registry := [], counter := 0,
    afRegistry := [((0, 20, 30), 20), ((1, 21, 31), 21), ((2, 22, 32), 22)],
    afCounter := 3, exiting := some false, events := [] }

/-- C7: the batch runner and the after-fork runner contain callback
exceptions: both are total state functions (no exception escapes them),
the executions a batch performs do not depend on which callbacks raise
(so an entry that raises does not stop the remaining entries), every
selected entry's execution event is present in the output, and the
after-fork runner invokes every item for an arbitrary — also always
raising — behaviour. -/
theorem runner_error_containment (cbBeh cbBeh' : CbBeh) (afBeh : AfBeh)
    (curPid : Nat) (minpriority : Option Int) (s : UtilState)
    (hrnd : (s.registry.map Prod.fst).Nodup)
    (hlive : ∀ p ∈ s.registry, liveEntryB curPid s p = true) :
    (runFinalizers cbBeh curPid minpriority s).events
        = (runFinalizers cbBeh' curPid minpriority s).events
    ∧ (∀ k ∈ selKeys s minpriority,
        Event.callback ((lookupKey k s.registry).getD 0)
          ∈ (runFinalizers cbBeh curPid minpriority s).events)
    ∧ (runAfterForkers afBeh s).events
        = s.events ++ (sortAsc s.afRegistry).map
            (fun it => Event.afterfork it.1.2.2 it.2) := by
  have h1 := runFinalizers_live_events cbBeh curPid minpriority s hrnd hlive
  have h2 := runFinalizers_live_events cbBeh' curPid minpriority s hrnd hlive
  refine ⟨by rw [h1, h2], ?_, runAfLoop_events afBeh (sortAsc s.afRegistry) s⟩
  intro k hk
  rw [h1, List.mem_append]
  right
  exact List.mem_map_of_mem _ hk

/-- Witness for C7: in the spec scenario an always-raising callback
behaviour produces the same executions as an always-returning one, and
an always-raising after-fork behaviour still runs all three items. -/
theorem runner_error_containment_witness :
    (runFinalizers raiseCb 42 none orderState).events
        = (runFinalizers sampleCb 42 none orderState).events
    ∧ (runAfterForkers failAf afState).events
        = [Event.afterfork 30 20, Event.afterfork 31 21,
           Event.afterfork 32 22] := by
  refine ⟨(runner_error_containment raiseCb sampleCb failAf 42 none
    orderState (by decide) (by decide)).1, ?_⟩
  rw [(runner_error_containment raiseCb sampleCb failAf 42 none
    afState (by decide) (by decide)).2.2]
  decide

/-- C8: `_run_after_forkers` snapshots the live items and invokes
`func(obj)` for each in ascending key order; under the registration
invariant (first key components strictly increasing along the
registry) that is exactly registration order, oldest first; and
`register_after_fork` preserves the invariant with the counter. -/
theorem run_after_forkers_order (afBeh : AfBeh) (s : UtilState)
    (o f : Nat)
    (hinc : s.afRegistry.Pairwise (fun a b => a.1.1 < b.1.1))
    (hbound : ∀ p ∈ s.afRegistry, p.1.1 < s.afCounter) :
    (runAfterForkers afBeh s).events
      = s.events ++ s.afRegistry.map (fun it => Event.afterfork it.1.2.2 it.2)
    ∧ (registerAfterFork s o f).afRegistry.Pairwise
        (fun a b => a.1.1 < b.1.1)
    ∧ (∀ p ∈ (registerAfterFork s o f).afRegistry,
        p.1.1 < (registerAfterFork s o f).afCounter) := by
  refine ⟨?_, ?_, ?_⟩
  · rw [runAfterForkers, runAfLoop_events]
    have hsorted : sortAsc s.afRegistry = s.afRegistry := by
      refine List.Sorted.insertionSort_eq ?_
      refine hinc.imp ?_
      intro a b hab
      simp [afLe, hab]
    rw [hsorted]
  · simp only [registerAfterFork]
    rw [List.pairwise_append]
    refine ⟨hinc, List.pairwise_singleton _ _, ?_⟩
    intro a ha b hb
    rw [List.mem_singleton] at hb
    subst hb
    exact hbound a ha
  · intro p hp
    simp only [registerAfterFork] at hp ⊢
    rw [List.mem_append] at hp
    rcases hp with hp | hp
    · exact Nat.lt_succ_of_lt (hbound p hp)
    · rw [List.mem_singleton] at hp
      subst hp
      exact Nat.lt_succ_self _

/-- Witness for C8: three after-fork items registered in order run in
registration order. -/
theorem run_after_forkers_order_witness :
    (runAfterForkers sampleAf afState).events
      = [Event.afterfork 30 20, Event.afterfork 31 21,
         Event.afterfork 32 22] := by
  rw [(run_after_forkers_order sampleAf afState 99 9 (by decide)
    (by decide)).1]
  decide

theorem finalizeCall_exiting (cbBeh : CbBeh) (curPid : Nat)
    (s : UtilState) (fid : Nat) :
    (finalizeCall cbBeh curPid s fid).1.exiting = s.exiting := by
  rcases finalizeCall_shape cbBeh curPid s fid with h | ⟨fin, k, _, _, _, hsh⟩
  · rw [h]
  · rcases hsh with h | h | h | h <;> rw [h]

theorem runFinLoop_exiting (cbBeh : CbBeh) (curPid : Nat)
    (keys : List FKey) (s : UtilState) :
    (runFinLoop cbBeh curPid keys s).exiting = s.exiting := by
  induction keys generalizing s with
  | nil => rfl
  | cons k ks ih =>
    cases hl : lookupKey k s.registry with
    | none =>
      simp only [runFinLoop, hl]
      exact ih s
    | some fid =>
      simp only [runFinLoop, hl]
      rw [ih, finalizeCall_exiting]

theorem runFinalizers_exiting (cbBeh : CbBeh) (curPid : Nat)
    (minpriority : Option Int) (s : UtilState) :
    (runFinalizers cbBeh curPid minpriority s).exiting = s.exiting := by
  cases minpriority with
  | none => exact runFinLoop_exiting cbBeh curPid (selKeys s none) s
  | some m => exact runFinLoop_exiting cbBeh curPid (selKeys s (some m)) s

theorem runFinLoop_events_mono (cbBeh : CbBeh) (curPid : Nat)
    (keys : List FKey) (s : UtilState) :
    ∃ l, (runFinLoop cbBeh curPid keys s).events = s.events ++ l
         ∧ ∀ e ∈ l, ∃ g, e = Event.callback g := by
  induction keys generalizing s with
  | nil =>
    refine ⟨[], by simp [runFinLoop], by simp⟩
  | cons k ks ih =>
    cases hl : lookupKey k s.registry with
    | none =>
      simp only [runFinLoop, hl]
      exact ih s
    | some fid =>
      simp only [runFinLoop, hl]
      obtain ⟨l, hl2, hall⟩ := ih (finalizeCall cbBeh curPid s fid).1
      rcases finalizeCall_events_shape cbBeh curPid s fid with he | he
      · exact ⟨l, by rw [hl2, he], hall⟩
      · refine ⟨Event.callback fid :: l, ?_, ?_⟩
        · rw [hl2, he, List.append_assoc, List.singleton_append]
        · intro e hme
          rcases List.mem_cons.mp hme with hme | hme
          · exact ⟨fid, hme⟩
          · exact hall e hme

theorem runFinalizers_events_mono (cbBeh : CbBeh) (curPid : Nat)
    (minpriority : Option Int) (s : UtilState) :
    ∃ l, (runFinalizers cbBeh curPid minpriority s).events = s.events ++ l
         ∧ ∀ e ∈ l, ∃ g, e = Event.callback g := by
  cases minpriority with
  | none => exact runFinLoop_events_mono cbBeh curPid (selKeys s none) s
  | some m => exact runFinLoop_events_mono cbBeh curPid (selKeys s (some m)) s

theorem foldl_child_exiting (f : UtilState → Child → UtilState)
    (hf : ∀ st c, (f st c).exiting = st.exiting) (l : List Child) :
    ∀ s : UtilState, (l.foldl f s).exiting = s.exiting := by
  induction l with
  | nil => intro s; rfl
  | cons c cs ih =>
    intro s
    rw [List.foldl_cons, ih, hf]

theorem childTeardown_exiting (children : List Child) (s : UtilState) :
    (childTeardown children s).exiting = s.exiting := by
  simp only [childTeardown]
  rw [foldl_child_exiting
        (fun st c => { st with events := st.events ++ [Event.join c.name] })
        (fun st c => rfl) children,
      foldl_child_exiting
        (fun st c => if c.daemon then
            { st with events := st.events ++ [Event.terminate c.name] }
          else st)
        (fun st c => by by_cases hc : c.daemon <;> simp [hc]) children]

/-- C3: the shutdown trigger runs the two-phase sequence at most once.
A first call (flag `False`) sets the flag, after which `is_exiting`
reports true; any later call — with any behaviours and environment —
returns the state unchanged, performing none of the steps.  The first
call runs finalizers at `minpriority = 0`, then (only when the
current-process handle is available) terminates daemon children and
joins active children, then runs all remaining finalizers; when the
handle is unavailable the child step is skipped entirely and only
callback events are appended. -/
theorem exit_function_spec (cbBeh : CbBeh) (curPid : Nat) (env : ProcEnv)
    (s : UtilState) (hrun : s.exiting = some false) :
    (exitFunction cbBeh curPid env s).exiting = some true
    ∧ isExiting (exitFunction cbBeh curPid env s) = true
    ∧ (∀ cbBeh' curPid' env', exitFunction cbBeh' curPid' env'
          (exitFunction cbBeh curPid env s) = exitFunction cbBeh curPid env s)
    ∧ (env.curAvailable = true →
        exitFunction cbBeh curPid env s
          = runFinalizers cbBeh curPid none
              (childTeardown env.children
                (runFinalizers cbBeh curPid (some 0)
                  { s with exiting := some true })))
    ∧ (env.curAvailable = false →
        exitFunction cbBeh curPid env s
          = runFinalizers cbBeh curPid none
              (runFinalizers cbBeh curPid (some 0)
                { s with exiting := some true })
        ∧ ∀ e ∈ (exitFunction cbBeh curPid env s).events.drop
              s.events.length, ∃ g, e = Event.callback g) := by
  have hne : ¬ (s.exiting = some true) := by
    rw [hrun]
    simp
  have hs2 : ∀ (c : Bool) (x : UtilState),
      (if c = true then childTeardown env.children x else x).exiting
        = x.exiting := by
    intro c x
    cases c with
    | true => simp [childTeardown_exiting]
    | false => simp
  have hflag : (exitFunction cbBeh curPid env s).exiting = some true := by
    simp only [exitFunction, if_neg hne]
    rw [runFinalizers_exiting, hs2, runFinalizers_exiting]
  refine ⟨hflag, by simp [isExiting, hflag], ?_, ?_, ?_⟩
  · intro cbBeh' curPid' env'
    generalize hx : exitFunction cbBeh curPid env s = x at hflag ⊢
    simp [exitFunction, hflag]
  · intro hav
    simp only [exitFunction, if_neg hne, hav]
    simp
  · intro hav
    have heq : exitFunction cbBeh curPid env s
        = runFinalizers cbBeh curPid none
            (runFinalizers cbBeh curPid (some 0)
              { s with exiting := some true }) := by
      simp only [exitFunction, if_neg hne, hav]
      simp
    refine ⟨heq, ?_⟩
    intro e he
    rw [heq] at he
    obtain ⟨l1, hl1, hall1⟩ := runFinalizers_events_mono cbBeh curPid
      (some 0) { s with exiting := some true }
    obtain ⟨l2, hl2, hall2⟩ := runFinalizers_events_mono cbBeh curPid none
      (runFinalizers cbBeh curPid (some 0) { s with exiting := some true })
    rw [hl2, hl1] at he
    have hev : ({ s with exiting := some true } : UtilState).events
        = s.events := rfl
    rw [hev, List.append_assoc, List.drop_left] at he
    rcases List.mem_append.mp he with he | he
    · exact hall1 e he
    · exact hall2 e he

/-- A sample shutdown environment: the current process is available and
has a daemon child and a non-daemon child. -/
def sampleEnv : ProcEnv :=
  { curAvailable := true,
    children := [{ name := 1, daemon := true },
                 { name := 2, daemon := false }] }

/-- Witness for C3: at `sampleState`, a first shutdown trigger sets the
flag, `is_exiting` is true afterwards, and a second trigger returns the
state unchanged. -/
theorem exit_function_spec_witness :
    (exitFunction sampleCb 42 sampleEnv sampleState).exiting = some true
    ∧ isExiting (exitFunction sampleCb 42 sampleEnv sampleState) = true
    ∧ exitFunction sampleCb 42 sampleEnv
        (exitFunction sampleCb 42 sampleEnv sampleState)
      = exitFunction sampleCb 42 sampleEnv sampleState := by
  obtain ⟨h1, h2, h3, _, _⟩ :=
    exit_function_spec sampleCb 42 sampleEnv sampleState (by decide)
  exact ⟨h1, h2, h3 sampleCb 42 sampleEnv⟩

/-- Counterexample to C6 as stated: at `sampleState`, entry 0 is owned
by the current process (42) and its callback raises; `__call__`
propagates the exception, but the `callback` and `key` fields are NOT
cleared — the clearing assignment in the source comes after the call
and is not in a `finally`, so it is skipped when the callback raises. -/
theorem finalize_call_raise_no_clear_counterexample :
    (finalizeCall raiseCb 42 sampleState 0).2 = .error 99
    ∧ ((finalizeCall raiseCb 42 sampleState 0).1.fins[0]?).bind
        Finalizer.callback = some 1
    ∧ ((finalizeCall raiseCb 42 sampleState 0).1.fins[0]?).bind
        Finalizer.key = some (some 5, 0) :=
  ⟨rfl, by decide, by decide⟩

/-- C6 amended: once the entry is atomically removed and owned by the
current process, a normally returning callback leads to all five
fields (`weakref`, `callback`, `args`, `kwargs`, `key`) being cleared,
and on the cross-process path the fields are cleared without a call;
but an exception raised by the callback propagates to the invoker
unmodified and leaves the fields uncleared (the store of `Finalize`
objects is unchanged). -/
theorem finalize_call_clear_spec (cbBeh : CbBeh) (curPid : Nat)
    (s : UtilState) (fid : Nat) (fin : Finalizer) (k : FKey)
    (cb : Nat) (args : List Nat) (kwargs : List (Nat × Nat))
    (hf : s.fins[fid]? = some fin) (hk : fin.key = some k)
    (hl : (lookupKey k s.registry).isSome = true)
    (hcb : fin.callback = some cb) (ha : fin.args = some args)
    (hw : fin.kwargs = some kwargs) :
    (fin.pid = curPid →
      (∀ res, cbBeh cb args kwargs = .ok res →
        finalizeCall cbBeh curPid s fid
          = ({ s with registry := eraseKey k s.registry,
                      fins := s.fins.set fid (clearFin fin),
                      events := s.events ++ [Event.callback fid] },
             .ok (some res)))
      ∧ (∀ e, cbBeh cb args kwargs = .error e →
        finalizeCall cbBeh curPid s fid
          = ({ s with registry := eraseKey k s.registry,
                      events := s.events ++ [Event.callback fid] },
             .error e)))
    ∧ (fin.pid ≠ curPid →
        finalizeCall cbBeh curPid s fid
          = ({ s with registry := eraseKey k s.registry,
                      fins := s.fins.set fid (clearFin fin) },
             .ok none)) := by
  refine ⟨fun hpid => ⟨?_, ?_⟩, fun hpid => ?_⟩
  · intro res hb
    simp [finalizeCall, hf, hk, hl, hpid, hcb, ha, hw, hb]
  · intro e hb
    simp [finalizeCall, hf, hk, hl, hpid, hcb, ha, hw, hb]
  · simp [finalizeCall, hf, hk, hl, hpid]

/-- Witness for the amended C6: at `sampleState`, a normally returning
callback clears the entry's fields; a raising callback propagates its
exception with the fields left as they were. -/
theorem finalize_call_clear_spec_witness :
    finalizeCall sampleCb 42 sampleState 0
      = ({ sampleState with
            registry := eraseKey (some 5, 0) sampleState.registry,
            fins := sampleState.fins.set 0 (clearFin sampleFin),
            events := sampleState.events ++ [Event.callback 0] },
         .ok (some 0))
    ∧ finalizeCall raiseCb 42 sampleState 0
      = ({ sampleState with
            registry := eraseKey (some 5, 0) sampleState.registry,
            events := sampleState.events ++ [Event.callback 0] },
         .error 99) :=
  ⟨((finalize_call_clear_spec sampleCb 42 sampleState 0 sampleFin
      (some 5, 0) 1 [2] [] (by decide) (by decide) (by decide) (by decide)
      (by decide) (by decide)).1 (by decide)).1 0 rfl,
   ((finalize_call_clear_spec raiseCb 42 sampleState 0 sampleFin
      (some 5, 0) 1 [2] [] (by decide) (by decide) (by decide) (by decide)
      (by decide) (by decide)).1 (by decide)).2 99 rfl⟩

end MpUtil
